import Mathlib

/-!
Verification development for the airline cargo network optimizer
(src/app.py).  The program builds a path registry and a leg-capacity
mapping from direct- and indirect-market rows, builds and solves a
linear program maximizing total contribution margin, and post-processes
the solved allocation into a per-leg priority classification.

Shallow embedding conventions:
* Spreadsheet rows are association lists from column-name strings to
  cells; a cell holds either a string or a number.  Real-valued fields
  are modelled as rationals.
* Python dictionaries are association lists with insert-or-overwrite
  update, preserving first-insertion position.
* The try/except-continue blocks of the build loops are modelled by
  sequencing the key lookups exactly as the source performs them: a
  failing lookup aborts the remaining effects of that row but keeps the
  effects already applied.
* The external LP solver (pulp) is modelled by its result record
  (a status and a total assignment of values to variables); theorems
  about solver output take the solver contract as a hypothesis.
-/

/-- A spreadsheet cell: either a string or a numeric value. -/
inductive Cell where
  | str : String → Cell
  | num : ℚ → Cell
deriving DecidableEq

/-- A parsed spreadsheet row: column name to cell. -/
abbrev Row := List (String × Cell)

/-- Lookup of a column in a row; a missing key is the KeyError case of
the source loops. -/
def rowGet (r : Row) (k : String) : Option Cell :=
  match r with
  | [] => none
  | (k', v) :: rest => if k' = k then some v else rowGet rest k

/-- Numeric coercion of a cell, the float(...) call of the source; a
string cell does not convert. -/
def Cell.toQ : Cell → Option ℚ
  | Cell.num q => some q
  | Cell.str _ => none

/-- Lookup of a numeric column: float(row[k]). -/
def getNum (r : Row) (k : String) : Option ℚ :=
  (rowGet r k).bind Cell.toQ

/-- Association-list lookup (Python dict read). -/
def aget {κ β : Type} [DecidableEq κ] (k : κ) : List (κ × β) → Option β
  | [] => none
  | (k', v) :: rest => if k' = k then some v else aget k rest

/-- Association-list insert-or-overwrite (Python dict write): an
existing key keeps its position, a new key is appended. -/
def ains {κ β : Type} [DecidableEq κ] (k : κ) (v : β) : List (κ × β) → List (κ × β)
  | [] => [(k, v)]
  | (k', v') :: rest => if k' = k then (k, v) :: rest else (k', v') :: ains k v rest

/-- Attributes of an OD path as stored in the registry dict of the
source: list of legs, contribution margin, allocation ceiling
(the max_allocable entry). -/
structure PathProps (κ : Type) where
  legs : List κ
  cm : ℚ
  maxAlloc : ℚ
deriving DecidableEq

/-- The pair of dictionaries built before solving: all_od_paths and
leg_capacities. -/
structure NetModel (κ : Type) where
  paths : List (κ × PathProps κ)
  legCaps : List (κ × ℚ)
deriving DecidableEq

/-- Fields read from a direct-market row, in source order: O-D, CM,
AI Share, AI Cap.  All lookups happen before either dict is written,
so a direct row is all-or-nothing. -/
structure DirectRec where
  od : Cell
  cm : ℚ
  share : ℚ
  cap : ℚ
deriving DecidableEq

/-- Parse a direct-market row (lines 24-27 of the source); any missing
key or non-numeric value aborts the row. -/
def parseDirect (r : Row) : Option DirectRec := do
  let od ← rowGet r "O-D"
  let cm ← getNum r "CM"
  let share ← getNum r "AI Share"
  let cap ← getNum r "AI Cap"
  pure ⟨od, cm, share, cap⟩

/-- One iteration of the direct-routes loop: registry entry with legs
[od], ceiling min(share, cap); leg capacity set (plain assignment) to
the own capacity. -/
def processDirect (st : NetModel Cell) (r : Row) : NetModel Cell :=
  match parseDirect r with
  | none => st
  | some d =>
    { paths := ains d.od ⟨[d.od], d.cm, min d.share d.cap⟩ st.paths,
      legCaps := ains d.od d.cap st.legCaps }

/-- Fields of an indirect-market row read before the first dict write:
O-D, CM, AI Share, 1st Leg O-D, 2nd Leg O-D. -/
structure IndirectHead where
  od : Cell
  cm : ℚ
  share : ℚ
  leg1 : Cell
  leg2 : Cell
deriving DecidableEq

/-- Parse the head fields of an indirect-market row (lines 35-38). -/
def parseIndirectHead (r : Row) : Option IndirectHead := do
  let od ← rowGet r "O-D"
  let cm ← getNum r "CM"
  let share ← getNum r "AI Share"
  let leg1 ← rowGet r "1st Leg O-D"
  let leg2 ← rowGet r "2nd Leg O-D"
  pure ⟨od, cm, share, leg1, leg2⟩

/-- leg_capacities[leg] = min(leg_capacities.get(leg, inf), cap). -/
def minInsert (l : Cell) (c : ℚ) (m : List (Cell × ℚ)) : List (Cell × ℚ) :=
  match aget l m with
  | none => ains l c m
  | some old => ains l (min old c) m

/-- One iteration of the indirect-routes loop.  The registry write
happens before the per-leg capacity lookups, and the capacity column
of the second leg is the literal string "2st Leg AI Cap" synthesized
by the source, so a row can contribute its path and then abort. -/
def processIndirect (st : NetModel Cell) (r : Row) : NetModel Cell :=
  match parseIndirectHead r with
  | none => st
  | some h =>
    let st1 : NetModel Cell :=
      { st with paths := ains h.od ⟨[h.leg1, h.leg2], h.cm, h.share⟩ st.paths }
    match getNum r "1st Leg AI Cap" with
    | none => st1
    | some c1 =>
      let st2 : NetModel Cell := { st1 with legCaps := minInsert h.leg1 c1 st1.legCaps }
      match getNum r "2st Leg AI Cap" with
      | none => st2
      | some c2 => { st2 with legCaps := minInsert h.leg2 c2 st2.legCaps }

/-- The whole model build: the direct-routes loop, then the
indirect-routes loop. -/
def buildModel (directs indirects : List Row) : NetModel Cell :=
  indirects.foldl processIndirect (directs.foldl processDirect ⟨[], []⟩)

/-! The solver-facing layer works on a model with string OD codes and
string legs, as produced by the registry for string-valued cells. -/

/-- A tonnage assignment: the varValue of every decision variable. -/
abbrev Alloc := String → ℚ

/-- The LP objective built on line 50 of the source:
lpSum of x_od * cm over the registry. -/
def objective (m : NetModel String) (x : Alloc) : ℚ :=
  (m.paths.map (fun op => x op.1 * op.2.cm)).sum

/-- The left side of the leg constraint of lines 51-52: the sum of
x_od over paths whose leg list contains the leg. -/
def legTraffic (m : NetModel String) (l : String) (x : Alloc) : ℚ :=
  ((m.paths.filter (fun op => decide (l ∈ op.2.legs))).map (fun op => x op.1)).sum

/-- lowBound=0 of line 49. -/
def nonnegAlloc (m : NetModel String) (x : Alloc) : Prop :=
  ∀ op ∈ m.paths, 0 ≤ x op.1

/-- The per-leg capacity constraints of lines 51-52. -/
def legFeasible (m : NetModel String) (x : Alloc) : Prop :=
  ∀ lc ∈ m.legCaps, legTraffic m lc.1 x ≤ lc.2

/-- The per-path ceiling constraints of lines 53-54. -/
def ceilFeasible (m : NetModel String) (x : Alloc) : Prop :=
  ∀ op ∈ m.paths, x op.1 ≤ op.2.maxAlloc

/-- Feasibility for the LP exactly as the source constructs it. -/
def lpFeasible (m : NetModel String) (x : Alloc) : Prop :=
  nonnegAlloc m x ∧ legFeasible m x ∧ ceilFeasible m x

/-- Optimality for the LP the source constructs. -/
def lpOptimal (m : NetModel String) (x : Alloc) : Prop :=
  lpFeasible m x ∧ ∀ y, lpFeasible m y → objective m y ≤ objective m x

/-- The built LP admits no feasible point. -/
def lpInfeasible (m : NetModel String) : Prop :=
  ∀ y, ¬ lpFeasible m y

/-- Feasibility in the words of the specification: every leg-capacity
constraint and every per-path ceiling constraint (0 ≤ tonnage ≤
ceiling) holds. -/
def claimFeasible (m : NetModel String) (y : Alloc) : Prop :=
  (∀ lc ∈ m.legCaps, legTraffic m lc.1 y ≤ lc.2) ∧
    (∀ op ∈ m.paths, 0 ≤ y op.1 ∧ y op.1 ≤ op.2.maxAlloc)

/-- Solver status as reported by pulp after prob.solve(). -/
inductive LpStatus where
  | optimal
  | notSolved
  | infeasible
  | unbounded
  | undefined
deriving DecidableEq

/-- The observable outcome of the prob.solve() call: a status and the
varValue assignment. -/
structure SolveResult where
  status : LpStatus
  values : Alloc

/-! Variable naming.  pulp builds variable names as "CargoTons_" ++ key
and replaces each character of "-+[] ->/" with an underscore; line 62
of the source recovers the OD key from the variable name with two
str.replace calls. -/

/-- The characters pulp rewrites in a variable name. -/
def illegalChar (c : Char) : Bool :=
  c = '-' || c = '+' || c = '[' || c = ']' || c = ' ' || c = '>' || c = '/'

/-- pulp name sanitization, one character. -/
def sanChar (c : Char) : Char :=
  if illegalChar c then '_' else c

/-- pulp name sanitization of a whole key. -/
def sanitize (s : String) : String :=
  ⟨s.data.map sanChar⟩

/-- The name of the decision variable of an OD key,
LpVariable.dicts("CargoTons", ...). -/
def varName (od : String) : String :=
  "CargoTons_" ++ sanitize od

/-- Does pat occur at the head of the list? -/
def leadsWith : List Char → List Char → Bool
  | [], _ => true
  | _ :: _, [] => false
  | a :: as, b :: bs => a == b && leadsWith as bs

/-- Does pat occur anywhere in the list? -/
def hasSubstr (pat : List Char) : List Char → Bool
  | [] => leadsWith pat []
  | c :: rest => leadsWith pat (c :: rest) || hasSubstr pat rest

/-- Python str.replace on character lists, fuel-indexed so that it is
structural: every non-overlapping occurrence of pat, scanned left to
right, becomes rep.  With fuel at least the input length the fuel
never runs out (an occurrence consumes at least one character). -/
def replaceFuel (pat rep : List Char) : ℕ → List Char → List Char
  | _, [] => []
  | 0, xs => xs
  | n + 1, c :: rest =>
    if pat ≠ [] ∧ leadsWith pat (c :: rest) = true then
      rep ++ replaceFuel pat rep n (List.drop pat.length (c :: rest))
    else
      c :: replaceFuel pat rep n rest

/-- Python str.replace on character lists. -/
def replaceList (pat rep xs : List Char) : List Char :=
  replaceFuel pat rep xs.length xs

/-- Python str.replace. -/
def pyReplace (s pat rep : String) : String :=
  ⟨replaceList pat.data rep.data s.data⟩

/-- Line 62 of the source: v.name.replace("CargoTons_", "").replace("_", "-"). -/
def recoverOd (name : String) : String :=
  pyReplace (pyReplace name "CargoTons_" "") "_" "-"

/-- Characters of an OD code that survive the variable-name round
trip: alphanumeric or a hyphen. -/
def okChar (c : Char) : Bool :=
  c.isAlphanum || c = '-'

/-- An OD key whose name round trip is exact: alphanumeric-or-hyphen
characters and no occurrence of the substring "CargoTons-". -/
def cleanKey (s : String) : Bool :=
  s.data.all okChar && !hasSubstr ("CargoTons-".data) s.data

/-- Python round(q, 2) on the idealized (rational) value: round half to
even at the second decimal. -/
def pyRound2 (q : ℚ) : ℚ :=
  let n : ℚ := q * 100
  let f : ℤ := ⌊n⌋
  let r : ℤ := if n - f = 1 / 2 then (if f % 2 = 0 then f else f + 1) else round n
  (r : ℚ) / 100

/-- One row of the OD allocation summary built on lines 59-66. -/
structure SummaryRow where
  od : String
  tons : ℚ
  cm : ℚ
  profit : ℚ
deriving DecidableEq

/-- The od_summary loop: iterate the variables, keep positive values,
recover the OD key from the variable name, look the key up in the
registry (a failed lookup is the KeyError that aborts the run), and
record rounded tonnage and rounded profit. -/
def odSummaryAux (m : NetModel String) (x : Alloc) :
    List (String × PathProps String) → Except String (List SummaryRow)
  | [] => Except.ok []
  | (od, _) :: rest =>
    if 0 < x od then
      let key := recoverOd (varName od)
      match aget key m.paths with
      | none => Except.error key
      | some props =>
        match odSummaryAux m x rest with
        | Except.error e => Except.error e
        | Except.ok rows =>
          Except.ok ({ od := key, tons := pyRound2 (x od), cm := props.cm,
                       profit := pyRound2 (x od * props.cm) } :: rows)
    else odSummaryAux m x rest

/-- The OD allocation summary over all decision variables. -/
def odSummary (m : NetModel String) (x : Alloc) : Except String (List SummaryRow) :=
  odSummaryAux m x m.paths

/-- One row of the leg breakdown (lines 70-80): leg, contributing OD,
its CM, the (already rounded) tonnage, and tonnage times CM. -/
structure LegRec where
  leg : String
  od : String
  cm : ℚ
  tons : ℚ
  profit : ℚ
deriving DecidableEq

/-- The leg-breakdown loop: one record per (summary row, leg of that
path); the registry lookup mirrors all_od_paths[od] on line 73. -/
def legDetailAux (m : NetModel String) : List SummaryRow → Except String (List LegRec)
  | [] => Except.ok []
  | r :: rest =>
    match aget r.od m.paths with
    | none => Except.error r.od
    | some props =>
      match legDetailAux m rest with
      | Except.error e => Except.error e
      | Except.ok t =>
        Except.ok (props.legs.map (fun l => ⟨l, r.od, r.cm, r.tons, r.tons * r.cm⟩) ++ t)

/-- Is the OD a direct (single-leg) path, per the lambda on line 99. -/
def isDirectIn (m : NetModel String) (od : String) : Bool :=
  match aget od m.paths with
  | some p => p.legs.length == 1
  | none => false

/-- The sort key of line 100: a precedes b when a has strictly larger
CM, or equal CM and a is direct or b is indirect (descending on
[CM, is_direct]). -/
def cmpLe (m : NetModel String) (a b : LegRec) : Bool :=
  (b.cm < a.cm) || (a.cm == b.cm && (isDirectIn m a.od || !isDirectIn m b.od))

/-- group["OD CM"].max() on a nonempty group. -/
def maxCm : List LegRec → ℚ
  | [] => 0
  | r :: rest => rest.foldl (fun acc s => max acc s.cm) r.cm

/-- The if/elif chain of lines 109-116: the label of one contributor,
from is_highest (cm equal to the top CM of the leg) and is_direct. -/
def codeLabel (m : NetModel String) (topCm : ℚ) (r : LegRec) : String :=
  if (r.cm == topCm) && isDirectIn m r.od then "Highest CM - Direct"
  else if (r.cm == topCm) && !isDirectIn m r.od then "Highest CM - Indirect"
  else if isDirectIn m r.od then "Direct - Lower CM"
  else "Indirect - Lower CM"

/-- The crossing table of section 4.3 of the specification, modelled
from its words: cross "is this CM equal to top_cm" with "is this a
direct path". -/
def specLabel (isHighest isDirect : Bool) : String :=
  match isHighest, isDirect with
  | true, true => "Highest CM - Direct"
  | true, false => "Highest CM - Indirect"
  | false, true => "Direct - Lower CM"
  | false, false => "Indirect - Lower CM"

/-- The per-leg classification of lines 88-119: a single contributor is
"Only OD" with rank 1; otherwise sort by the key of line 100 and label
each row by crossing is_highest with is_direct, ranking by position. -/
def classifyLeg (m : NetModel String) (g : List LegRec) : List (LegRec × String × ℕ) :=
  match g with
  | [r] => [(r, "Only OD", 1)]
  | _ =>
    (g.mergeSort (cmpLe m)).enum.map (fun p => (p.2, codeLabel m (maxCm g) p.2, p.1 + 1))

/-- The distinct legs of the breakdown, the groupby keys. -/
def legsOf (rs : List LegRec) : List String :=
  (rs.map (fun r => r.leg)).dedup

/-- The rows of one leg, in breakdown order (groupby preserves the
within-group order). -/
def groupOf (rs : List LegRec) (l : String) : List LegRec :=
  rs.filter (fun r => r.leg == l)

/-- The classification of every leg group. -/
def classifyAll (m : NetModel String) (rs : List LegRec) :
    List (String × List (LegRec × String × ℕ)) :=
  (legsOf rs).map (fun l => (l, classifyLeg m (groupOf rs l)))

/-- The leg-level rollup of line 121: total tonnage per leg. -/
def legTotals (rs : List LegRec) : List (String × ℚ) :=
  (legsOf rs).map (fun l => (l, ((groupOf rs l).map (fun r => r.tons)).sum))

/-- Everything the run hands to the reporting layer. -/
structure Output where
  summary : List SummaryRow
  detail : List (String × List (LegRec × String × ℕ))
  totals : List (String × ℚ)
  totalProfit : ℚ
deriving DecidableEq

/-- The whole post-solve computation.  The status field of the solver
result is never consulted; any uncaught KeyError surfaces as the error
case (the outer except of the source, which shows an error message and
produces no tables). -/
def pipeline (m : NetModel String) (res : SolveResult) : Except String Output :=
  match odSummary m res.values with
  | Except.error e => Except.error e
  | Except.ok s =>
    match legDetailAux m s with
    | Except.error e => Except.error e
    | Except.ok d =>
      Except.ok { summary := s, detail := classifyAll m d, totals := legTotals d,
                  totalProfit := objective m res.values }

/-! Concrete instances used by counterexamples and witnesses. -/

/-- A one-path model with a negative ceiling, the bad-input situation
of section 7 of the specification. -/
def c3Model : NetModel String :=
  ⟨[("A-B", ⟨["A-B"], 1, -1⟩)], [("A-B", 10)]⟩

/-- A solver outcome reporting infeasibility while still carrying
(garbage) variable values, as the CBC backend does. -/
def c3Res : SolveResult :=
  ⟨LpStatus.infeasible, fun _ => 3⟩

/-- A small healthy one-path model: CM 1, ceiling 5, leg capacity 10. -/
def oneM : NetModel String :=
  ⟨[("A-B", ⟨["A-B"], 1, 5⟩)], [("A-B", 10)]⟩

/-- The allocation sending 5 tons, optimal for oneM. -/
def oneX : Alloc := fun _ => 5

/-- C1.  Any allocation fulfilling the solver contract (an optimum of
the LP exactly as the source builds it) maximizes the objective of the
claim: no assignment satisfying every leg-capacity constraint and
every per-path ceiling constraint achieves a strictly larger total
contribution margin. -/
theorem c1_solver_allocation_maximizes (m : NetModel String) (x : Alloc)
    (hcap : ∀ lc ∈ m.legCaps, 0 ≤ lc.2)
    (hceil : ∀ op ∈ m.paths, 0 ≤ op.2.maxAlloc)
    (hopt : lpOptimal m x) :
    ∀ y : Alloc, claimFeasible m y → objective m y ≤ objective m x := by
  intro y hy
  exact hopt.2 y ⟨fun op hop => (hy.2 op hop).1, hy.1, fun op hop => (hy.2 op hop).2⟩

/-- The allocation sending 5 tons is LP-optimal for oneM. -/
lemma oneM_opt : lpOptimal oneM oneX := by
  refine ⟨⟨?_, ?_, ?_⟩, ?_⟩
  · simp only [nonnegAlloc]
    decide
  · intro lc hlc
    simp only [oneM, List.mem_singleton] at hlc
    subst hlc
    simp [legTraffic, oneM, oneX]
    norm_num
  · simp only [ceilFeasible]
    decide
  · intro y hy
    have hc := hy.2.2 ("A-B", ⟨["A-B"], 1, 5⟩) (by simp [oneM])
    simp only [objective, oneM, oneX, List.map_cons, List.map_nil, List.sum_cons,
      List.sum_nil] at *
    nlinarith [hc]

/-- Witness for C1 at the concrete model oneM. -/
theorem c1_witness :
    objective oneM (fun _ => 3) ≤ objective oneM oneX :=
  c1_solver_allocation_maximizes oneM oneX (by decide) (by decide) oneM_opt
    (fun _ => 3)
    ⟨by
      intro lc hlc
      simp only [oneM, List.mem_singleton] at hlc
      subst hlc
      simp [legTraffic, oneM]
      norm_num,
     by
      intro op hop
      simp only [oneM, List.mem_singleton] at hop
      subst hop
      norm_num⟩

/-- C2.  Any allocation that is feasible for the LP exactly as the
source builds it satisfies the feasibility statement of the claim:
every leg-capacity constraint and 0 ≤ tonnage ≤ ceiling per path. -/
theorem c2_solution_feasible (m : NetModel String) (x : Alloc)
    (h : lpFeasible m x) : claimFeasible m x := by
  rcases h with ⟨hnn, hleg, hceil⟩
  exact ⟨hleg, fun op hop => ⟨hnn op hop, hceil op hop⟩⟩

/-- Witness for C2 at the concrete model oneM. -/
theorem c2_witness : claimFeasible oneM oneX :=
  c2_solution_feasible oneM oneX
    ⟨by simp only [nonnegAlloc]; decide,
     by
      intro lc hlc
      simp only [oneM, List.mem_singleton] at hlc
      subst hlc
      simp [legTraffic, oneM, oneX]
      norm_num,
     by simp only [ceilFeasible]; decide⟩

/-- C3, counterexample.  The LP of c3Model is infeasible (its one
ceiling is negative), yet the run does not fail: the pipeline ignores
the reported infeasible status and produces a complete, nonempty
summary from the garbage values. -/
theorem c3_counterexample :
    lpInfeasible c3Model ∧
      (pipeline c3Model c3Res).toOption.map (fun o => o.summary.length) = some 1 := by
  constructor
  · intro y hy
    rcases hy with ⟨hnn, _, hceil⟩
    have h1 := hnn ("A-B", ⟨["A-B"], 1, -1⟩) (by simp [c3Model])
    have h2 := hceil ("A-B", ⟨["A-B"], 1, -1⟩) (by simp [c3Model])
    simp only at h1 h2
    linarith
  · decide

/-- C3, amended.  The post-solve computation never consults the solver
status: its outcome is a function of the variable values alone. -/
theorem c3_status_never_consulted (m : NetModel String) (s s' : LpStatus) (v : Alloc) :
    pipeline m ⟨s, v⟩ = pipeline m ⟨s', v⟩ := rfl

/-! String lemmas for the variable-name round trip. -/

lemma replaceFuel_congr (pat rep : List Char) :
    ∀ (n : ℕ) (xs : List Char) (n' : ℕ), xs.length ≤ n → xs.length ≤ n' →
      replaceFuel pat rep n xs = replaceFuel pat rep n' xs := by
  intro n
  induction n with
  | zero =>
    intro xs n' h1 _
    have hx : xs = [] := List.length_eq_zero.mp (Nat.le_zero.mp h1)
    subst hx
    cases n' <;> rfl
  | succ k ih =>
    intro xs n' h1 h2
    cases xs with
    | nil => cases n' <;> rfl
    | cons c rest =>
      cases n' with
      | zero => simp at h2
      | succ m =>
        simp only [replaceFuel]
        by_cases hc : pat ≠ [] ∧ leadsWith pat (c :: rest) = true
        · simp only [if_pos hc]
          have hp : 1 ≤ pat.length := by
            rcases hc with ⟨hne, _⟩
            cases pat with
            | nil => simp at hne
            | cons _ _ => simp
          simp only [List.length_cons] at h1 h2
          have hl1 : (List.drop pat.length (c :: rest)).length ≤ k := by
            simp only [List.length_drop, List.length_cons]
            omega
          have hl2 : (List.drop pat.length (c :: rest)).length ≤ m := by
            simp only [List.length_drop, List.length_cons]
            omega
          rw [ih _ _ hl1 hl2]
        · simp only [if_neg hc]
          simp only [List.length_cons] at h1 h2
          rw [ih rest m (by omega) (by omega)]

lemma leadsWith_self_append (pat t : List Char) : leadsWith pat (pat ++ t) = true := by
  induction pat with
  | nil => rfl
  | cons a as ih => simp [leadsWith, ih]

lemma replaceFuel_no_occ (pat rep : List Char) :
    ∀ (n : ℕ) (xs : List Char), xs.length ≤ n → hasSubstr pat xs = false →
      replaceFuel pat rep n xs = xs := by
  intro n
  induction n with
  | zero =>
    intro xs h1 _
    have hx : xs = [] := List.length_eq_zero.mp (Nat.le_zero.mp h1)
    subst hx
    rfl
  | succ k ih =>
    intro xs h1 hno
    cases xs with
    | nil => rfl
    | cons c rest =>
      have hno' : leadsWith pat (c :: rest) = false ∧ hasSubstr pat rest = false := by
        simpa [hasSubstr] using hno
      simp only [replaceFuel]
      rw [if_neg (by
        rintro ⟨_, hl⟩
        rw [hno'.1] at hl
        exact Bool.false_ne_true hl)]
      simp only [List.length_cons] at h1
      rw [ih rest (by omega) hno'.2]

lemma replaceList_no_occ (pat rep xs : List Char) (h : hasSubstr pat xs = false) :
    replaceList pat rep xs = xs :=
  replaceFuel_no_occ pat rep xs.length xs (le_refl _) h

lemma replaceList_strip (pat rep s : List Char) (hne : pat ≠ [])
    (hno : hasSubstr pat s = false) :
    replaceList pat rep (pat ++ s) = rep ++ s := by
  cases pat with
  | nil => exact absurd rfl hne
  | cons p pr =>
    show replaceFuel (p :: pr) rep ((p :: pr ++ s).length) (p :: pr ++ s) = rep ++ s
    have hlen : (p :: pr ++ s).length = (pr ++ s).length + 1 := by simp
    rw [hlen]
    simp only [replaceFuel]
    rw [if_pos ⟨by simp, by simpa using leadsWith_self_append (p :: pr) s⟩]
    simp only [List.append_eq]
    have hdrop : List.drop (p :: pr).length (p :: (pr ++ s)) = s := by
      simpa using List.drop_left (p :: pr) s
    rw [hdrop]
    have hfuel : replaceFuel (p :: pr) rep ((pr ++ s).length) s =
        replaceFuel (p :: pr) rep s.length s := by
      apply replaceFuel_congr
      · simp
      · exact le_refl _
    rw [hfuel]
    rw [show replaceFuel (p :: pr) rep s.length s = replaceList (p :: pr) rep s from rfl]
    rw [replaceList_no_occ _ _ _ hno]

lemma replaceFuel_single (p q : Char) :
    ∀ (n : ℕ) (xs : List Char), xs.length ≤ n →
      replaceFuel [p] [q] n xs = xs.map (fun c => if c = p then q else c) := by
  intro n
  induction n with
  | zero =>
    intro xs h1
    have hx : xs = [] := List.length_eq_zero.mp (Nat.le_zero.mp h1)
    subst hx
    rfl
  | succ k ih =>
    intro xs h1
    cases xs with
    | nil => rfl
    | cons c rest =>
      simp only [List.length_cons] at h1
      simp only [replaceFuel, List.map_cons]
      by_cases hc : c = p
      · subst hc
        rw [if_pos ⟨by simp, by simp [leadsWith]⟩]
        simp only [List.length_singleton, List.drop_succ_cons, List.drop_zero]
        rw [ih rest (by omega)]
        simp
      · rw [if_neg (by
          rintro ⟨_, hl⟩
          simp only [leadsWith, Bool.and_eq_true, beq_iff_eq] at hl
          exact hc hl.1.symm)]
        rw [if_neg hc]
        rw [ih rest (by omega)]

lemma replaceList_single (p q : Char) (xs : List Char) :
    replaceList [p] [q] xs = xs.map (fun c => if c = p then q else c) :=
  replaceFuel_single p q xs.length xs (le_refl _)

lemma ok_and_illegal {c : Char} (ho : okChar c = true) (hi : illegalChar c = true) :
    c = '-' := by
  simp only [illegalChar, Bool.or_eq_true, decide_eq_true_eq] at hi
  rcases hi with ((((((h | h) | h) | h) | h) | h) | h) <;> subst h <;>
    first
    | rfl
    | exact absurd ho (by decide)

lemma sanChar_ok_inj {a b : Char} (ha : okChar a = true) (hb : okChar b = true)
    (h : sanChar a = sanChar b) : a = b := by
  by_cases ia : illegalChar a = true
  · by_cases ib : illegalChar b = true
    · rw [ok_and_illegal ha ia, ok_and_illegal hb ib]
    · have hb' : sanChar b = b := by simp [sanChar, ia, Bool.not_eq_true] at *; simp [sanChar, ib]
      have ha' : sanChar a = '_' := by simp [sanChar, ia]
      rw [ha', hb'] at h
      exact absurd hb (by rw [← h]; decide)
  · by_cases ib : illegalChar b = true
    · have ha' : sanChar a = a := by simp [sanChar, ia]
      have hb' : sanChar b = '_' := by simp [sanChar, ib]
      rw [ha', hb'] at h
      exact absurd ha (by rw [h]; decide)
    · have ha' : sanChar a = a := by simp [sanChar, ia]
      have hb' : sanChar b = b := by simp [sanChar, ib]
      rw [ha', hb'] at h
      exact h

lemma leadsWith_map_sanChar (ps : List Char) :
    ∀ xs : List Char, (∀ c ∈ ps, okChar c = true) → (∀ c ∈ xs, okChar c = true) →
      leadsWith (ps.map sanChar) (xs.map sanChar) = true → leadsWith ps xs = true := by
  induction ps with
  | nil => intro xs _ _ _; rfl
  | cons p pr ih =>
    intro xs hps hxs h
    cases xs with
    | nil => simp [leadsWith] at h
    | cons c rest =>
      simp only [List.map_cons, leadsWith, Bool.and_eq_true, beq_iff_eq] at h ⊢
      obtain ⟨h1, h2⟩ := h
      have hpc : p = c := sanChar_ok_inj (hps p (by simp)) (hxs c (by simp)) h1
      refine ⟨hpc, ih rest (fun d hd => hps d (by simp [hd])) (fun d hd => hxs d (by simp [hd])) h2⟩

lemma hasSubstr_map_sanChar (ps : List Char) (hps : ∀ c ∈ ps, okChar c = true) :
    ∀ xs : List Char, (∀ c ∈ xs, okChar c = true) → hasSubstr ps xs = false →
      hasSubstr (ps.map sanChar) (xs.map sanChar) = false := by
  intro xs
  induction xs with
  | nil =>
    intro _ h
    cases ps with
    | nil => simp [hasSubstr, leadsWith] at h
    | cons _ _ => simp [hasSubstr, leadsWith]
  | cons c rest ih =>
    intro hxs h
    have h' : leadsWith ps (c :: rest) = false ∧ hasSubstr ps rest = false := by
      simpa [hasSubstr] using h
    have hrest : hasSubstr (ps.map sanChar) (rest.map sanChar) = false :=
      ih (fun d hd => hxs d (by simp [hd])) h'.2
    have hlead : leadsWith (ps.map sanChar) ((c :: rest).map sanChar) = false := by
      by_contra hcon
      have htrue : leadsWith (ps.map sanChar) ((c :: rest).map sanChar) = true := by
        revert hcon
        cases leadsWith (ps.map sanChar) ((c :: rest).map sanChar) <;> simp
      have := leadsWith_map_sanChar ps (c :: rest) hps hxs htrue
      rw [h'.1] at this
      exact Bool.false_ne_true this
    show (leadsWith (ps.map sanChar) ((c :: rest).map sanChar) ||
      hasSubstr (ps.map sanChar) (rest.map sanChar)) = false
    rw [hlead, hrest]
    rfl

lemma g_sanChar {c : Char} (h : okChar c = true) :
    (if sanChar c = '_' then '-' else sanChar c) = c := by
  by_cases hi : illegalChar c = true
  · rw [ok_and_illegal h hi]
    rfl
  · have hs : sanChar c = c := by simp [sanChar, hi]
    rw [hs, if_neg]
    intro hc
    rw [hc] at h
    exact absurd h (by decide)

/-- The round trip of line 62 is exact on clean keys. -/
lemma recover_clean (od : String) (h : cleanKey od = true) :
    recoverOd (varName od) = od := by
  have hok : ∀ c ∈ od.data, okChar c = true := by
    have := (Bool.and_eq_true _ _).mp h
    exact fun c hc => List.all_eq_true.mp this.1 c hc
  have hno : hasSubstr ("CargoTons-".data) od.data = false := by
    have := (Bool.and_eq_true _ _).mp h
    simpa using this.2
  have hdata : (varName od).data = "CargoTons_".data ++ od.data.map sanChar := by
    show ("CargoTons_" ++ sanitize od).data = _
    rw [String.data_append]
    rfl
  have hmap : ("CargoTons-".data).map sanChar = "CargoTons_".data := by decide
  have hno2 : hasSubstr ("CargoTons_".data) (od.data.map sanChar) = false := by
    rw [← hmap]
    exact hasSubstr_map_sanChar _ (by decide) od.data hok hno
  have hstep1 : pyReplace (varName od) "CargoTons_" "" = ⟨od.data.map sanChar⟩ := by
    show (⟨replaceList ("CargoTons_".data) ("".data) (varName od).data⟩ : String) = _
    rw [hdata, replaceList_strip _ _ _ (by decide) hno2]
    rfl
  rw [recoverOd, hstep1]
  show (⟨replaceList ("_".data) ("-".data) (od.data.map sanChar)⟩ : String) = od
  have : replaceList ['_'] ['-'] (od.data.map sanChar) = od.data := by
    rw [replaceList_single]
    rw [List.map_map]
    have : ∀ c ∈ od.data,
        ((fun c => if c = '_' then '-' else c) ∘ sanChar) c = id c := by
      intro c hc
      simpa using g_sanChar (hok c hc)
    rw [List.map_congr_left this, List.map_id]
  rw [show ("_".data) = ['_'] from rfl, show ("-".data) = ['-'] from rfl, this]

/-! Characterization of the summary loop on models with clean,
pairwise-distinct keys. -/

lemma aget_of_mem_nodup {κ β : Type} [DecidableEq κ] {l : List (κ × β)} {p : κ × β}
    (hnd : (l.map Prod.fst).Nodup) (hp : p ∈ l) : aget p.1 l = some p.2 := by
  induction l with
  | nil => simp at hp
  | cons q rest ih =>
    simp only [List.map_cons, List.nodup_cons] at hnd
    rcases List.mem_cons.mp hp with h | h
    · subst h
      cases p with
      | mk a b => simp [aget]
    · have hne : ¬ (q.1 = p.1) := fun he => hnd.1 (by rw [he]; exact List.mem_map.mpr ⟨p, h, rfl⟩)
      cases q with
      | mk a b =>
        show (if a = p.1 then some b else aget p.1 rest) = some p.2
        rw [if_neg hne]
        exact ih hnd.2 h

lemma odSummaryAux_clean (m : NetModel String) (x : Alloc) :
    ∀ l : List (String × PathProps String),
      (∀ op ∈ l, recoverOd (varName op.1) = op.1 ∧ aget op.1 m.paths = some op.2) →
      odSummaryAux m x l = Except.ok ((l.filter (fun op => decide (0 < x op.1))).map
        (fun op => ⟨op.1, pyRound2 (x op.1), op.2.cm, pyRound2 (x op.1 * op.2.cm)⟩)) := by
  intro l
  induction l with
  | nil => intro _; rfl
  | cons op rest ih =>
    intro hcl
    obtain ⟨hrec, hget⟩ := hcl op (by simp)
    have hrest := ih (fun q hq => hcl q (by simp [hq]))
    cases op with
    | mk od props =>
      simp only at hrec hget
      simp only [odSummaryAux]
      by_cases hx : 0 < x od
      · rw [if_pos hx, hrec, hget, hrest]
        simp [List.filter_cons, hx]
      · rw [if_neg hx, hrest]
        simp [List.filter_cons, hx]

lemma legDetailAux_ok (m : NetModel String) :
    ∀ rows : List SummaryRow, (∀ r ∈ rows, (aget r.od m.paths).isSome = true) →
      ∃ t, legDetailAux m rows = Except.ok t := by
  intro rows
  induction rows with
  | nil => exact fun _ => ⟨[], rfl⟩
  | cons r rest ih =>
    intro h
    obtain ⟨p, hp⟩ : ∃ p, aget r.od m.paths = some p :=
      Option.isSome_iff_exists.mp (h r (by simp))
    obtain ⟨t, ht⟩ := ih (fun q hq => h q (by simp [hq]))
    refine ⟨p.legs.map (fun l => ⟨l, r.od, r.cm, r.tons, r.tons * r.cm⟩) ++ t, ?_⟩
    simp only [legDetailAux]
    rw [hp, ht]

/-- On a model whose keys are clean and pairwise distinct, the run
succeeds and the summary is one row per positive-value path, keyed by
the original registry key. -/
lemma pipeline_clean (m : NetModel String) (res : SolveResult)
    (hkeys : ∀ op ∈ m.paths, cleanKey op.1 = true)
    (hnd : (m.paths.map Prod.fst).Nodup) :
    ∃ out, pipeline m res = Except.ok out ∧
      out.summary = (m.paths.filter (fun op => decide (0 < res.values op.1))).map
        (fun op => ⟨op.1, pyRound2 (res.values op.1), op.2.cm,
                    pyRound2 (res.values op.1 * op.2.cm)⟩) ∧
      out.totalProfit = objective m res.values := by
  have hsum : odSummary m res.values = Except.ok
      ((m.paths.filter (fun op => decide (0 < res.values op.1))).map
        (fun op => ⟨op.1, pyRound2 (res.values op.1), op.2.cm,
                    pyRound2 (res.values op.1 * op.2.cm)⟩)) :=
    odSummaryAux_clean m res.values m.paths
      (fun op hop => ⟨recover_clean _ (hkeys op hop), aget_of_mem_nodup hnd hop⟩)
  have hisin : ∀ r ∈ (m.paths.filter (fun op => decide (0 < res.values op.1))).map
      (fun op => (⟨op.1, pyRound2 (res.values op.1), op.2.cm,
                  pyRound2 (res.values op.1 * op.2.cm)⟩ : SummaryRow)),
      (aget r.od m.paths).isSome = true := by
    intro r hr
    obtain ⟨op, hopf, rfl⟩ := List.mem_map.mp hr
    have hop : op ∈ m.paths := List.mem_of_mem_filter hopf
    rw [aget_of_mem_nodup hnd hop]
    rfl
  obtain ⟨t, ht⟩ := legDetailAux_ok m _ hisin
  refine ⟨⟨(m.paths.filter (fun op => decide (0 < res.values op.1))).map
        (fun op => ⟨op.1, pyRound2 (res.values op.1), op.2.cm,
                    pyRound2 (res.values op.1 * op.2.cm)⟩),
      classifyAll m t, legTotals t, objective m res.values⟩, ?_, rfl, rfl⟩
  simp only [pipeline, hsum, ht]

/-! Concrete models for C8 and C9. -/

/-- One clean path with a small CM so that the rounded per-path profit
differs from the exact objective value. -/
def c8M : NetModel String :=
  ⟨[("A-B", ⟨["A-B"], 1 / 1024, 5⟩)], [("A-B", 10)]⟩

/-- Solver outcome allocating 5 tons. -/
def c8Res : SolveResult :=
  ⟨LpStatus.optimal, fun _ => 5⟩

/-- The solver outcome allocating nothing; used by the C8 witness. -/
def c8ResW : SolveResult :=
  ⟨LpStatus.optimal, fun _ => 0⟩

/-- The output of the run on oneM with the zero allocation. -/
def c8OutW : Output :=
  ⟨[], [], [], objective oneM (fun _ => 0)⟩

/-- C8, counterexample.  On c8M with 5 allocated tons the reported
total profit is 5/1024, but the per-OD output carries the profit
rounded to two decimals, so the summed per-path profit figures are 0:
the two quantities the claim equates differ. -/
theorem c8_counterexample :
    (pipeline c8M c8Res).toOption.map (fun o => o.totalProfit) = some (5 / 1024) ∧
    (pipeline c8M c8Res).toOption.map
      (fun o => (o.summary.map (fun r => r.profit)).sum) = some 0 ∧
    (5 / 1024 : ℚ) ≠ 0 := by
  obtain ⟨out, hok, hsum, htot⟩ := pipeline_clean c8M c8Res (by decide) (by decide)
  refine ⟨?_, ?_, by norm_num⟩
  · rw [hok]
    simp only [Except.toOption, Option.map_some']
    rw [htot]
    norm_num [objective, c8M, c8Res]
  · rw [hok]
    simp only [Except.toOption, Option.map_some']
    rw [hsum]
    norm_num [c8M, c8Res, pyRound2, round_eq]

/-- C8, amended.  The reported total profit equals the exact objective
value, the sum of tonnage times CM over all paths; the per-OD output
reports per-path profits rounded to two decimals, so the sum of those
figures equals the sum of the rounded products, which can differ from
the total. -/
theorem c8_profit_consistency (m : NetModel String) (res : SolveResult) (out : Output)
    (hkeys : ∀ op ∈ m.paths, cleanKey op.1 = true)
    (hnd : (m.paths.map Prod.fst).Nodup)
    (hok : pipeline m res = Except.ok out) :
    out.totalProfit = objective m res.values ∧
    (out.summary.map (fun r => r.profit)).sum =
      ((m.paths.filter (fun op => decide (0 < res.values op.1))).map
        (fun op => pyRound2 (res.values op.1 * op.2.cm))).sum := by
  obtain ⟨out2, hok2, hsum, htot⟩ := pipeline_clean m res hkeys hnd
  rw [hok] at hok2
  injection hok2 with heq
  subst heq
  exact ⟨htot, by rw [hsum, List.map_map]; rfl⟩

/-- Witness for C8 at the concrete model oneM with the zero allocation. -/
theorem c8_witness :
    c8OutW.totalProfit = objective oneM c8ResW.values ∧
    (c8OutW.summary.map (fun r => r.profit)).sum =
      ((oneM.paths.filter (fun op => decide (0 < c8ResW.values op.1))).map
        (fun op => pyRound2 (c8ResW.values op.1 * op.2.cm))).sum :=
  c8_profit_consistency oneM c8ResW c8OutW (by decide) (by decide) rfl

/-- Registry keys built from alphanumeric-and-hyphen OD codes only. -/
def allKeysAlnumDash (m : NetModel String) : Bool :=
  m.paths.all (fun op => op.1.data.all (fun c => c.isAlphanum || c = '-'))

/-- A model whose two OD codes are alphanumeric-and-hyphen, one of
them containing "CargoTons-" as a substring. -/
def c9M : NetModel String :=
  ⟨[("CargoTons-X", ⟨["CargoTons-X"], 2, 5⟩), ("X", ⟨["X"], 3, 7⟩)],
   [("CargoTons-X", 10), ("X", 10)]⟩

/-- Solver outcome giving both paths positive tonnage. -/
def c9Res : SolveResult :=
  ⟨LpStatus.optimal, fun _ => 5⟩

/-- A model with an underscore in its single OD code. -/
def c9U : NetModel String :=
  ⟨[("A_B", ⟨["A_B"], 1, 5⟩)], [("A_B", 10)]⟩

/-- Solver outcome giving the underscore path positive tonnage. -/
def c9URes : SolveResult :=
  ⟨LpStatus.optimal, fun _ => 5⟩

/-- C9, counterexample.  Every OD code of c9M consists only of
alphanumeric characters and hyphens, yet the run maps both variables
to the output key "X": the row derived from the registry key
"CargoTons-X" does not carry its original key, because str.replace
removes every occurrence of "CargoTons_", not only the prefix. -/
theorem c9_counterexample :
    allKeysAlnumDash c9M = true ∧
    (pipeline c9M c9Res).toOption.map (fun o => o.summary.map (fun r => r.od)) =
      some ["X", "X"] ∧
    "CargoTons-X" ∉ (["X", "X"] : List String) := by
  refine ⟨by decide, by decide, by decide⟩

/-- C9, amended.  The round trip recovers every clean key (alphanumeric
or hyphen characters, no "CargoTons-" substring), and on an input whose
OD code contains an underscore and receives positive tonnage the
registry lookup of the recovered key fails, so the run produces an
error instead of output tables. -/
theorem c9_name_roundtrip :
    (∀ od : String, cleanKey od = true → recoverOd (varName od) = od) ∧
    0 < c9URes.values "A_B" ∧
    pipeline c9U c9URes = Except.error "A-B" :=
  ⟨recover_clean, by decide, by rfl⟩

/-- Witness for C9: the round trip at a concrete clean key. -/
theorem c9_witness : recoverOd (varName "BOM-DEL") = "BOM-DEL" :=
  c9_name_roundtrip.1 "BOM-DEL" (by decide)

/-! Lemmas for the classification order. -/

lemma cmpLe_trans (m : NetModel String) : ∀ a b c : LegRec,
    cmpLe m a b = true → cmpLe m b c = true → cmpLe m a c = true := by
  intro a b c h1 h2
  simp only [cmpLe, Bool.or_eq_true, Bool.and_eq_true, beq_iff_eq, decide_eq_true_eq,
    Bool.not_eq_true'] at h1 h2 ⊢
  rcases h1 with h1 | ⟨e1, d1⟩ <;> rcases h2 with h2 | ⟨e2, d2⟩
  · exact Or.inl (lt_trans h2 h1)
  · exact Or.inl (e2 ▸ h1)
  · exact Or.inl (by rw [e1]; exact h2)
  · refine Or.inr ⟨e1.trans e2, ?_⟩
    rcases d1 with d1 | d1
    · exact Or.inl d1
    · rcases d2 with d2 | d2
      · rw [d1] at d2
        exact absurd d2 (by simp)
      · exact Or.inr d2

lemma cmpLe_total (m : NetModel String) : ∀ a b : LegRec,
    (cmpLe m a b || cmpLe m b a) = true := by
  intro a b
  simp only [cmpLe, Bool.or_eq_true, Bool.and_eq_true, beq_iff_eq, decide_eq_true_eq,
    Bool.not_eq_true']
  rcases lt_trichotomy a.cm b.cm with h | h | h
  · exact Or.inr (Or.inl h)
  · cases hD : isDirectIn m a.od <;> cases hE : isDirectIn m b.od
    · exact Or.inl (Or.inr ⟨h, Or.inr rfl⟩)
    · exact Or.inr (Or.inr ⟨h.symm, Or.inl rfl⟩)
    · exact Or.inl (Or.inr ⟨h, Or.inl rfl⟩)
    · exact Or.inl (Or.inr ⟨h, Or.inl rfl⟩)
  · exact Or.inl (Or.inl h)

lemma cmpLe_imp (m : NetModel String) {a b : LegRec} (h : cmpLe m a b = true) :
    b.cm < a.cm ∨ (a.cm = b.cm ∧ (isDirectIn m b.od = true → isDirectIn m a.od = true)) := by
  simp only [cmpLe, Bool.or_eq_true, Bool.and_eq_true, beq_iff_eq, decide_eq_true_eq,
    Bool.not_eq_true'] at h
  rcases h with h | ⟨e, d⟩
  · exact Or.inl h
  · refine Or.inr ⟨e, ?_⟩
    rcases d with d | d
    · exact fun _ => d
    · intro hb
      rw [d] at hb
      exact absurd hb (by simp)

lemma cmpLe_cm_le (m : NetModel String) {a b : LegRec} (h : cmpLe m a b = true) :
    b.cm ≤ a.cm := by
  rcases cmpLe_imp m h with h' | ⟨e, _⟩
  · exact le_of_lt h'
  · exact le_of_eq e.symm

lemma foldl_maxcm_init (rest : List LegRec) :
    ∀ init : ℚ, init ≤ rest.foldl (fun acc s => max acc s.cm) init := by
  induction rest with
  | nil => intro init; exact le_refl _
  | cons s t ih => intro init; exact le_trans (le_max_left _ _) (ih (max init s.cm))

lemma foldl_maxcm_mem (rest : List LegRec) :
    ∀ init : ℚ, ∀ s ∈ rest, s.cm ≤ rest.foldl (fun acc x => max acc x.cm) init := by
  induction rest with
  | nil => intro init s hs; simp at hs
  | cons a t ih =>
    intro init s hs
    rcases List.mem_cons.mp hs with h | h
    · subst h
      exact le_trans (le_max_right _ _) (foldl_maxcm_init t _)
    · exact ih _ s h

lemma foldl_maxcm_le (rest : List LegRec) :
    ∀ (init q : ℚ), init ≤ q → (∀ s ∈ rest, s.cm ≤ q) →
      rest.foldl (fun acc x => max acc x.cm) init ≤ q := by
  induction rest with
  | nil => intro init q h _; exact h
  | cons a t ih =>
    intro init q h hall
    exact ih _ _ (max_le h (hall a (by simp))) (fun s hs => hall s (by simp [hs]))

lemma le_maxCm_of_mem {g : List LegRec} {r : LegRec} (h : r ∈ g) : r.cm ≤ maxCm g := by
  cases g with
  | nil => simp at h
  | cons a t =>
    rcases List.mem_cons.mp h with h' | h'
    · subst h'
      exact foldl_maxcm_init t _
    · exact foldl_maxcm_mem t _ r h'

lemma maxCm_le {g : List LegRec} (hne : g ≠ []) {q : ℚ} (h : ∀ r ∈ g, r.cm ≤ q) :
    maxCm g ≤ q := by
  cases g with
  | nil => exact absurd rfl hne
  | cons a t => exact foldl_maxcm_le t _ _ (h a (by simp)) (fun s hs => h s (by simp [hs]))

lemma enumFrom_ranks (l : List LegRec) :
    ∀ k : ℕ, (List.enumFrom k l).map (fun p => p.1 + 1) = List.range' (k + 1) l.length := by
  induction l with
  | nil => intro k; rfl
  | cons x xs ih =>
    intro k
    rw [List.enumFrom_cons]
    show (k + 1) :: (List.enumFrom (k + 1) xs).map (fun p => p.1 + 1) = _
    rw [ih (k + 1)]
    simp [List.range']

/-- The properties of the per-leg classification on a group of at
least two contributors. -/
lemma classify_props (m : NetModel String) (g : List LegRec) (h2 : 2 ≤ g.length) :
    ((classifyLeg m g).map (fun u => u.1)).Perm g ∧
    (classifyLeg m g).map (fun u => u.2.2) = List.range' 1 g.length ∧
    List.Pairwise
      (fun a b => b.cm < a.cm ∨ (a.cm = b.cm ∧
        (isDirectIn m b.od = true → isDirectIn m a.od = true)))
      ((classifyLeg m g).map (fun u => u.1)) ∧
    (∀ u ∈ classifyLeg m g, u.2.2 = 1 → u.1.cm = maxCm g) := by
  obtain ⟨a, b, t, rfl⟩ : ∃ a b t, g = a :: b :: t := by
    cases g with
    | nil => simp at h2
    | cons a tl =>
      cases tl with
      | nil => simp at h2
      | cons b t => exact ⟨a, b, t, rfl⟩
  have hperm : ((a :: b :: t).mergeSort (cmpLe m)).Perm (a :: b :: t) :=
    List.mergeSort_perm _ _
  have hsorted : List.Pairwise (fun x y => cmpLe m x y = true)
      ((a :: b :: t).mergeSort (cmpLe m)) :=
    List.sorted_mergeSort (cmpLe_trans m) (cmpLe_total m) _
  have hfst : (classifyLeg m (a :: b :: t)).map (fun u => u.1) =
      (a :: b :: t).mergeSort (cmpLe m) := by
    show (((a :: b :: t).mergeSort (cmpLe m)).enum.map _).map _ = _
    rw [List.map_map]
    exact List.enum_map_snd _
  refine ⟨?_, ?_, ?_, ?_⟩
  · rw [hfst]
    exact hperm
  · show (((a :: b :: t).mergeSort (cmpLe m)).enum.map _).map _ = _
    rw [List.map_map]
    have h := enumFrom_ranks ((a :: b :: t).mergeSort (cmpLe m)) 0
    rw [List.length_mergeSort] at h
    exact h
  · rw [hfst]
    exact hsorted.imp (fun h => cmpLe_imp m h)
  · intro u hu hrank
    obtain ⟨p, hp, rfl⟩ := List.mem_map.mp hu
    have hp0 : p.1 = 0 := by
      have : p.1 + 1 = 1 := hrank
      omega
    have hget := List.mem_enum_iff_getElem?.mp hp
    rw [hp0] at hget
    cases hs : (a :: b :: t).mergeSort (cmpLe m) with
    | nil =>
      rw [hs] at hget
      simp at hget
    | cons hd tl =>
      rw [hs] at hget
      simp only [List.getElem?_cons_zero] at hget
      have hp2 : p.2 = hd := by injection hget with h; exact h.symm
      show p.2.cm = _
      rw [hp2]
      apply le_antisymm
      · exact le_maxCm_of_mem (hperm.mem_iff.mp (by rw [hs]; exact List.mem_cons_self _ _))
      · apply maxCm_le (by simp)
        intro r hr
        have hrs : r ∈ (a :: b :: t).mergeSort (cmpLe m) := hperm.mem_iff.mpr hr
        rw [hs] at hrs
        rcases List.mem_cons.mp hrs with h | h
        · subst h
          exact le_refl _
        · exact cmpLe_cm_le m ((List.pairwise_cons.mp (hs ▸ hsorted)).1 r h)

/-- C5.  On a leg group with at least two contributors, the classifier
output is a permutation of the group, the assigned ranks are exactly
1..n in output order, the output order is sorted by CM descending with
ties broken in favor of direct paths, and a rank-1 contributor always
carries the maximal CM of the group. -/
theorem c5_priority_order (m : NetModel String) (rs : List LegRec) (l : String)
    (h2 : 2 ≤ (groupOf rs l).length) :
    ((classifyLeg m (groupOf rs l)).map (fun u => u.1)).Perm (groupOf rs l) ∧
    (classifyLeg m (groupOf rs l)).map (fun u => u.2.2) =
      List.range' 1 (groupOf rs l).length ∧
    List.Pairwise
      (fun a b => b.cm < a.cm ∨ (a.cm = b.cm ∧
        (isDirectIn m b.od = true → isDirectIn m a.od = true)))
      ((classifyLeg m (groupOf rs l)).map (fun u => u.1)) ∧
    (∀ u ∈ classifyLeg m (groupOf rs l), u.2.2 = 1 →
      u.1.cm = maxCm (groupOf rs l)) :=
  classify_props m (groupOf rs l) h2

/-- The two-contributor fixture of Scenario B: leg A-B shared by the
direct market A-B (CM 10) and the indirect market A-C (CM 20). -/
def m5 : NetModel String :=
  ⟨[("A-B", ⟨["A-B"], 10, 60⟩), ("A-C", ⟨["A-B", "B-C"], 20, 30⟩)],
   [("A-B", 50), ("B-C", 100)]⟩

/-- The leg-breakdown rows of the two contributors on leg A-B. -/
def rs5 : List LegRec :=
  [⟨"A-B", "A-B", 10, 20, 200⟩, ⟨"A-B", "A-C", 20, 30, 600⟩]

/-- Witness for C5 at the Scenario B fixture. -/
theorem c5_witness :
    ((classifyLeg m5 (groupOf rs5 "A-B")).map (fun u => u.1)).Perm (groupOf rs5 "A-B") ∧
    (classifyLeg m5 (groupOf rs5 "A-B")).map (fun u => u.2.2) =
      List.range' 1 (groupOf rs5 "A-B").length ∧
    List.Pairwise
      (fun a b => b.cm < a.cm ∨ (a.cm = b.cm ∧
        (isDirectIn m5 b.od = true → isDirectIn m5 a.od = true)))
      ((classifyLeg m5 (groupOf rs5 "A-B")).map (fun u => u.1)) ∧
    (∀ u ∈ classifyLeg m5 (groupOf rs5 "A-B"), u.2.2 = 1 →
      u.1.cm = maxCm (groupOf rs5 "A-B")) :=
  c5_priority_order m5 rs5 "A-B" (by decide)

lemma classifyLeg_two (m : NetModel String) (g : List LegRec) (h2 : 2 ≤ g.length) :
    classifyLeg m g =
      (g.mergeSort (cmpLe m)).enum.map
        (fun p => (p.2, codeLabel m (maxCm g) p.2, p.1 + 1)) := by
  cases g with
  | nil => simp at h2
  | cons a tl =>
    cases tl with
    | nil => simp at h2
    | cons b t => rfl

lemma codeLabel_eq_specLabel (m : NetModel String) (topCm : ℚ) (r : LegRec) :
    codeLabel m topCm r = specLabel (r.cm == topCm) (isDirectIn m r.od) := by
  unfold codeLabel specLabel
  cases hH : (r.cm == topCm) <;> cases hD : isDirectIn m r.od <;> simp

/-- C7.  A single contributor is labeled "Only OD" with rank 1; on a
group of two or more, every contributor carries exactly the label of
the reference crossing of (CM equal to the top CM) with (path is
direct). -/
theorem c7_labels (m : NetModel String) (g : List LegRec) :
    (∀ r, g = [r] → classifyLeg m g = [(r, "Only OD", 1)]) ∧
    (2 ≤ g.length → ∀ u ∈ classifyLeg m g,
      u.2.1 = specLabel (u.1.cm == maxCm g) (isDirectIn m u.1.od)) := by
  constructor
  · intro r hr
    subst hr
    rfl
  · intro h2 u hu
    rw [classifyLeg_two m g h2] at hu
    obtain ⟨p, hp, rfl⟩ := List.mem_map.mp hu
    exact codeLabel_eq_specLabel m (maxCm g) p.2

/-- A lone contributor row used by the C7 witness. -/
def r7 : LegRec := ⟨"A-B", "A-B", 10, 100, 1000⟩

/-- Witness for C7: the single-contributor branch at a concrete row. -/
theorem c7_witness : classifyLeg oneM [r7] = [(r7, "Only OD", 1)] :=
  (c7_labels oneM [r7]).1 r7 rfl

/-! The build loops as write sequences over the two dictionaries. -/

/-- The registry write a direct row performs, when it performs one. -/
def directPathWrite (r : Row) : Option (Cell × PathProps Cell) :=
  (parseDirect r).map (fun d => (d.od, ⟨[d.od], d.cm, min d.share d.cap⟩))

/-- The registry write an indirect row performs, when it performs one. -/
def indirectPathWrite (r : Row) : Option (Cell × PathProps Cell) :=
  (parseIndirectHead r).map (fun h => (h.od, ⟨[h.leg1, h.leg2], h.cm, h.share⟩))

/-- Every registry write of a whole build, in order. -/
def pathWrites (ds is : List Row) : List (Cell × PathProps Cell) :=
  ds.filterMap directPathWrite ++ is.filterMap indirectPathWrite

/-- The leg-capacity write of a direct row: the own capacity, keyed by
the own OD code. -/
def capWritesD (ds : List Row) : List (Cell × ℚ) :=
  ds.filterMap (fun r => (parseDirect r).map (fun d => (d.od, d.cap)))

/-- The per-leg capacity claims an indirect row registers: nothing when
the head fields or the first capacity column are missing, and the
second claim only when the "2st Leg AI Cap" column is present. -/
def rowClaims (r : Row) : List (Cell × ℚ) :=
  match parseIndirectHead r with
  | none => []
  | some h =>
    match getNum r "1st Leg AI Cap" with
    | none => []
    | some c1 =>
      (h.leg1, c1) ::
        (match getNum r "2st Leg AI Cap" with
         | none => []
         | some c2 => [(h.leg2, c2)])

/-- All capacity claims of the indirect loop, in order. -/
def claimsOf (is : List Row) : List (Cell × ℚ) :=
  is.flatMap rowClaims

/-- The value the sequence of dict writes ws leaves under key k:
the value of the last write keyed k, if any. -/
def lastVal {β : Type} (k : Cell) : List (Cell × β) → Option β
  | [] => none
  | w :: rest =>
    match lastVal k rest with
    | some v => some v
    | none => if w.1 = k then some w.2 else none

/-- Apply a sequence of plain dict writes. -/
def applyW {β : Type} (m : List (Cell × β)) (ws : List (Cell × β)) : List (Cell × β) :=
  ws.foldl (fun acc w => ains w.1 w.2 acc) m

/-- Apply a sequence of min-updates. -/
def applyMin (m : List (Cell × ℚ)) (cs : List (Cell × ℚ)) : List (Cell × ℚ) :=
  cs.foldl (fun acc p => minInsert p.1 p.2 acc) m

/-- One min-update of an optional current value. -/
def optMin (o : Option ℚ) (c : ℚ) : Option ℚ :=
  match o with
  | none => some c
  | some v => some (min v c)

/-- The minimum of a list of capacity figures, when there are any. -/
def minOfList : List ℚ → Option ℚ
  | [] => none
  | c :: cs => some (cs.foldl min c)

/-- Every capacity figure contributed to leg code l: the own capacity
of each direct record whose OD code is l, then each per-leg claim of
an indirect record naming l. -/
def legContribs (ds is : List Row) (l : Cell) : List ℚ :=
  ((capWritesD ds).filter (fun p => decide (p.1 = l))).map Prod.snd ++
    ((claimsOf is).filter (fun p => decide (p.1 = l))).map Prod.snd

lemma aget_ains_self {κ β : Type} [DecidableEq κ] (k : κ) (v : β) :
    ∀ m : List (κ × β), aget k (ains k v m) = some v := by
  intro m
  induction m with
  | nil => simp [ains, aget]
  | cons q rest ih =>
    cases q with
    | mk a b =>
      by_cases h : a = k
      · subst h
        simp [ains, aget]
      · simp only [ains, if_neg h]
        show (if a = k then some b else aget k (ains k v rest)) = some v
        rw [if_neg h, ih]

lemma aget_ains_ne {κ β : Type} [DecidableEq κ] {k k' : κ} (v : β) (h : k ≠ k') :
    ∀ m : List (κ × β), aget k' (ains k v m) = aget k' m := by
  intro m
  induction m with
  | nil =>
    show (if k = k' then some v else none) = none
    rw [if_neg h]
  | cons q rest ih =>
    cases q with
    | mk a b =>
      by_cases ha : a = k
      · subst ha
        simp only [ains, if_pos rfl]
        show (if a = k' then some v else aget k' rest) = if a = k' then some b else aget k' rest
        rw [if_neg h, if_neg h]
      · simp only [ains, if_neg ha]
        show (if a = k' then some b else aget k' (ains k v rest)) = _
        by_cases hb : a = k'
        · rw [if_pos hb]
          show _ = (if a = k' then some b else aget k' rest)
          rw [if_pos hb]
        · rw [if_neg hb, ih]
          show _ = (if a = k' then some b else aget k' rest)
          rw [if_neg hb]

lemma aget_applyW {β : Type} (k : Cell) :
    ∀ (ws : List (Cell × β)) (m : List (Cell × β)),
      aget k (applyW m ws) =
        match lastVal k ws with
        | some v => some v
        | none => aget k m := by
  intro ws
  induction ws with
  | nil => intro m; rfl
  | cons w rest ih =>
    intro m
    show aget k (applyW (ains w.1 w.2 m) rest) = _
    rw [ih]
    show _ = (match (match lastVal k rest with
        | some v => some v
        | none => if w.1 = k then some w.2 else none) with
      | some v => some v
      | none => aget k m)
    cases hlv : lastVal k rest with
    | some v => rfl
    | none =>
      by_cases hw : w.1 = k
      · rw [if_pos hw]
        subst hw
        exact aget_ains_self _ _ m
      · rw [if_neg hw]
        exact aget_ains_ne _ hw m

lemma aget_applyW_nil {β : Type} (k : Cell) (ws : List (Cell × β)) :
    aget k (applyW [] ws) = lastVal k ws := by
  rw [aget_applyW]
  cases lastVal k ws <;> rfl

lemma processDirect_paths (st : NetModel Cell) (r : Row) :
    (processDirect st r).paths =
      match directPathWrite r with
      | none => st.paths
      | some w => ains w.1 w.2 st.paths := by
  unfold processDirect directPathWrite
  cases parseDirect r <;> rfl

lemma processDirect_legCaps (st : NetModel Cell) (r : Row) :
    (processDirect st r).legCaps =
      match (parseDirect r).map (fun d => (d.od, d.cap)) with
      | none => st.legCaps
      | some w => ains w.1 w.2 st.legCaps := by
  unfold processDirect
  cases parseDirect r <;> rfl

lemma processIndirect_paths (st : NetModel Cell) (r : Row) :
    (processIndirect st r).paths =
      match indirectPathWrite r with
      | none => st.paths
      | some w => ains w.1 w.2 st.paths := by
  unfold processIndirect indirectPathWrite
  cases parseIndirectHead r with
  | none => rfl
  | some h =>
    cases getNum r "1st Leg AI Cap" with
    | none => rfl
    | some c1 =>
      cases getNum r "2st Leg AI Cap" <;> rfl

lemma processIndirect_legCaps (st : NetModel Cell) (r : Row) :
    (processIndirect st r).legCaps = applyMin st.legCaps (rowClaims r) := by
  unfold processIndirect rowClaims
  cases parseIndirectHead r with
  | none => rfl
  | some h =>
    cases getNum r "1st Leg AI Cap" with
    | none => rfl
    | some c1 =>
      cases getNum r "2st Leg AI Cap" <;> rfl

lemma directPhase_paths : ∀ (ds : List Row) (st : NetModel Cell),
    (ds.foldl processDirect st).paths = applyW st.paths (ds.filterMap directPathWrite) := by
  intro ds
  induction ds with
  | nil => intro st; rfl
  | cons r rest ih =>
    intro st
    show ((rest.foldl processDirect (processDirect st r))).paths = _
    rw [ih]
    rw [List.filterMap_cons]
    cases hw : directPathWrite r with
    | none => rw [processDirect_paths, hw]
    | some w =>
      rw [processDirect_paths, hw]
      rfl

lemma indirectPhase_paths : ∀ (is : List Row) (st : NetModel Cell),
    (is.foldl processIndirect st).paths = applyW st.paths (is.filterMap indirectPathWrite) := by
  intro is
  induction is with
  | nil => intro st; rfl
  | cons r rest ih =>
    intro st
    show ((rest.foldl processIndirect (processIndirect st r))).paths = _
    rw [ih]
    rw [List.filterMap_cons]
    cases hw : indirectPathWrite r with
    | none => rw [processIndirect_paths, hw]
    | some w =>
      rw [processIndirect_paths, hw]
      rfl

lemma directPhase_legCaps : ∀ (ds : List Row) (st : NetModel Cell),
    (ds.foldl processDirect st).legCaps = applyW st.legCaps (capWritesD ds) := by
  intro ds
  induction ds with
  | nil => intro st; rfl
  | cons r rest ih =>
    intro st
    show ((rest.foldl processDirect (processDirect st r))).legCaps = _
    rw [ih]
    show _ = applyW st.legCaps (List.filterMap _ (r :: rest))
    rw [List.filterMap_cons]
    cases hw : (parseDirect r).map (fun d => (d.od, d.cap)) with
    | none =>
      rw [processDirect_legCaps, hw]
      rfl
    | some w =>
      rw [processDirect_legCaps, hw]
      rfl

lemma indirectPhase_legCaps : ∀ (is : List Row) (st : NetModel Cell),
    (is.foldl processIndirect st).legCaps = applyMin st.legCaps (claimsOf is) := by
  intro is
  induction is with
  | nil => intro st; rfl
  | cons r rest ih =>
    intro st
    show ((rest.foldl processIndirect (processIndirect st r))).legCaps = _
    rw [ih, processIndirect_legCaps]
    show applyMin (applyMin st.legCaps (rowClaims r)) (claimsOf rest) = _
    unfold applyMin claimsOf
    rw [List.flatMap_cons, List.foldl_append]

/-- The whole build writes the registry like a plain last-writer-wins
sequence of dict writes. -/
lemma buildModel_paths (ds is : List Row) (X : Cell) :
    aget X (buildModel ds is).paths = lastVal X (pathWrites ds is) := by
  unfold buildModel pathWrites
  rw [indirectPhase_paths, directPhase_paths]
  show aget X (applyW (applyW [] _) _) = _
  unfold applyW
  rw [← List.foldl_append]
  exact aget_applyW_nil X _

lemma aget_minInsert_self (l : Cell) (c : ℚ) (mm : List (Cell × ℚ)) :
    aget l (minInsert l c mm) = optMin (aget l mm) c := by
  unfold minInsert optMin
  cases aget l mm with
  | none => exact aget_ains_self l c mm
  | some old => exact aget_ains_self l (min old c) mm

lemma aget_minInsert_ne {l k : Cell} (c : ℚ) (mm : List (Cell × ℚ)) (h : l ≠ k) :
    aget k (minInsert l c mm) = aget k mm := by
  unfold minInsert
  cases aget l mm with
  | none => exact aget_ains_ne c h mm
  | some old => exact aget_ains_ne (min old c) h mm

lemma aget_applyMin (k : Cell) :
    ∀ (cs : List (Cell × ℚ)) (mm : List (Cell × ℚ)),
      aget k (applyMin mm cs) =
        ((cs.filter (fun p => decide (p.1 = k))).map Prod.snd).foldl optMin (aget k mm) := by
  intro cs
  induction cs with
  | nil => intro mm; rfl
  | cons p rest ih =>
    intro mm
    show aget k (applyMin (minInsert p.1 p.2 mm) rest) = _
    rw [ih, List.filter_cons]
    by_cases hp : p.1 = k
    · rw [if_pos (by simpa using hp)]
      subst hp
      rw [aget_minInsert_self]
      rfl
    · rw [if_neg (by simpa using hp)]
      rw [aget_minInsert_ne _ _ hp]

lemma foldl_optMin_eq : ∀ (qs : List ℚ) (o : Option ℚ),
    qs.foldl optMin o =
      match o with
      | none => minOfList qs
      | some v => some (qs.foldl min v) := by
  intro qs
  induction qs with
  | nil => intro o; cases o <;> rfl
  | cons q rest ih =>
    intro o
    cases o with
    | none =>
      show rest.foldl optMin (optMin none q) = _
      rw [show optMin none q = some q from rfl, ih]
      rfl
    | some v =>
      show rest.foldl optMin (optMin (some v) q) = _
      rw [show optMin (some v) q = some (min v q) from rfl, ih]
      rfl

lemma foldl_optMin_minOfList (xs ys : List ℚ) :
    ys.foldl optMin (minOfList xs) = minOfList (xs ++ ys) := by
  cases xs with
  | nil => rw [foldl_optMin_eq]; rfl
  | cons c cs =>
    rw [show minOfList (c :: cs) = some (cs.foldl min c) from rfl, foldl_optMin_eq]
    show some (ys.foldl min (cs.foldl min c)) = _
    rw [show ((c :: cs) ++ ys) = c :: (cs ++ ys) from rfl]
    rw [show minOfList (c :: (cs ++ ys)) = some ((cs ++ ys).foldl min c) from rfl]
    rw [List.foldl_append]

lemma lastVal_none_of_not_mem {β : Type} (k : Cell) :
    ∀ ws : List (Cell × β), k ∉ ws.map Prod.fst → lastVal k ws = none := by
  intro ws
  induction ws with
  | nil => intro _; rfl
  | cons w rest ih =>
    intro h
    simp only [List.map_cons, List.mem_cons, not_or] at h
    show (match lastVal k rest with
      | some v => some v
      | none => if w.1 = k then some w.2 else none) = none
    rw [ih h.2, if_neg (fun he => h.1 he.symm)]

lemma lastVal_eq_min_of_nodup (l : Cell) :
    ∀ ws : List (Cell × ℚ), (ws.map Prod.fst).Nodup →
      lastVal l ws = minOfList ((ws.filter (fun p => decide (p.1 = l))).map Prod.snd) := by
  intro ws
  induction ws with
  | nil => intro _; rfl
  | cons w rest ih =>
    intro hnd
    simp only [List.map_cons, List.nodup_cons] at hnd
    by_cases hw : w.1 = l
    · have hfil : rest.filter (fun p => decide (p.1 = l)) = [] := by
        rw [List.filter_eq_nil_iff]
        intro p hp
        simp only [decide_eq_true_eq]
        intro hpl
        exact hnd.1 (by
          rw [hw, ← hpl]
          exact List.mem_map.mpr ⟨p, hp, rfl⟩)
      have hlv : lastVal l rest = none := by
        rw [ih hnd.2, hfil]
        rfl
      simp only [lastVal, hlv]
      rw [if_pos hw, List.filter_cons,
        if_pos (show decide (w.1 = l) = true by simpa using hw), hfil]
      rfl
    · have hrest := ih hnd.2
      cases hlv : lastVal l rest with
      | some v =>
        rw [hlv] at hrest
        simp only [lastVal, hlv, List.filter_cons]
        rw [if_neg (show ¬ decide (w.1 = l) = true by simpa using hw)]
        exact hrest
      | none =>
        rw [hlv] at hrest
        simp only [lastVal, hlv, if_neg hw, List.filter_cons]
        rw [if_neg (show ¬ decide (w.1 = l) = true by simpa using hw)]
        exact hrest

lemma lastVal_nodup_mem {β : Type} {ws : List (Cell × β)} {w : Cell × β}
    (hnd : (ws.map Prod.fst).Nodup) (h : w ∈ ws) : lastVal w.1 ws = some w.2 := by
  induction ws with
  | nil => simp at h
  | cons q rest ih =>
    simp only [List.map_cons, List.nodup_cons] at hnd
    rcases List.mem_cons.mp h with h' | h'
    · subst h'
      show (match lastVal w.1 rest with
        | some v => some v
        | none => if w.1 = w.1 then some w.2 else none) = some w.2
      rw [lastVal_none_of_not_mem w.1 rest hnd.1, if_pos rfl]
    · show (match lastVal w.1 rest with
        | some v => some v
        | none => if q.1 = w.1 then some q.2 else none) = some w.2
      rw [ih hnd.2 h']

lemma capWritesD_keys : ∀ ds : List Row,
    (capWritesD ds).map Prod.fst = (ds.filterMap directPathWrite).map Prod.fst := by
  intro ds
  induction ds with
  | nil => rfl
  | cons r rest ih =>
    show (List.filterMap _ (r :: rest)).map Prod.fst = (List.filterMap _ (r :: rest)).map Prod.fst
    rw [List.filterMap_cons, List.filterMap_cons]
    unfold directPathWrite
    cases parseDirect r with
    | none => exact ih
    | some d =>
      simp only [Option.map_some', List.map_cons]
      exact congrArg _ ih

/-- The leg-capacity mapping the build produces, on inputs whose
direct records have pairwise distinct OD codes: the minimum over the
contributed capacity figures of each leg code. -/
lemma buildModel_legCaps (ds is : List Row) (l : Cell)
    (hnd : ((capWritesD ds).map Prod.fst).Nodup) :
    aget l (buildModel ds is).legCaps = minOfList (legContribs ds is l) := by
  unfold buildModel
  rw [indirectPhase_legCaps, directPhase_legCaps, aget_applyMin]
  show ((claimsOf is).filter _ |>.map Prod.snd).foldl optMin
      (aget l (applyW [] (capWritesD ds))) = _
  rw [aget_applyW_nil, lastVal_eq_min_of_nodup l _ hnd, foldl_optMin_minOfList]
  rfl

/-- A direct row for the OD code A-B with own capacity 50. -/
def c4dup1 : Row :=
  [("O-D", Cell.str "A-B"), ("CM", Cell.num 5), ("AI Share", Cell.num 100),
   ("AI Cap", Cell.num 50)]

/-- A second direct row for the same OD code A-B, capacity 100. -/
def c4dup2 : Row :=
  [("O-D", Cell.str "A-B"), ("CM", Cell.num 5), ("AI Share", Cell.num 100),
   ("AI Cap", Cell.num 100)]

/-- C4, counterexample.  With two direct records for the same OD code
(capacities 50 then 100), the build leaves capacity 100 in the leg
mapping: the later plain assignment overwrites, so the leg capacity is
not the minimum (50) over the two contributed figures. -/
theorem c4_counterexample :
    aget (Cell.str "A-B") (buildModel [c4dup1, c4dup2] []).legCaps = some 100 ∧
    minOfList (legContribs [c4dup1, c4dup2] [] (Cell.str "A-B")) = some (min 50 100) ∧
    some ((100 : ℚ)) ≠ some (min (50 : ℚ) 100) :=
  ⟨by decide, by decide, by decide⟩

/-- C4, amended.  On an input whose records are all well formed and
whose OD codes are pairwise distinct, the build satisfies the
contract of specification section 4.1: each direct record yields legs
[od] and ceiling min(share, capacity); each indirect record yields a
path with its two legs and its raw market-share ceiling; each leg
capacity equals the minimum over every capacity figure contributed to
that leg code. -/
theorem c4_build_contract (ds is : List Row)
    (hwfD : ∀ r ∈ ds, (parseDirect r).isSome = true)
    (hwfI : ∀ r ∈ is, (parseIndirectHead r).isSome = true ∧
      (getNum r "1st Leg AI Cap").isSome = true ∧
      (getNum r "2st Leg AI Cap").isSome = true)
    (hnd : ((pathWrites ds is).map Prod.fst).Nodup) :
    (∀ r ∈ ds, ∀ d : DirectRec, parseDirect r = some d →
      aget d.od (buildModel ds is).paths = some ⟨[d.od], d.cm, min d.share d.cap⟩) ∧
    (∀ r ∈ is, ∀ h : IndirectHead, parseIndirectHead r = some h →
      aget h.od (buildModel ds is).paths = some ⟨[h.leg1, h.leg2], h.cm, h.share⟩) ∧
    (∀ l : Cell, aget l (buildModel ds is).legCaps = minOfList (legContribs ds is l)) := by
  refine ⟨?_, ?_, ?_⟩
  · intro r hr d hd
    rw [buildModel_paths]
    have hmem : ((d.od, (⟨[d.od], d.cm, min d.share d.cap⟩ : PathProps Cell)) :
        Cell × PathProps Cell) ∈ pathWrites ds is :=
      List.mem_append_left _
        (List.mem_filterMap.mpr ⟨r, hr, by rw [directPathWrite, hd]; rfl⟩)
    exact lastVal_nodup_mem hnd hmem
  · intro r hr h hh
    rw [buildModel_paths]
    have hmem : ((h.od, (⟨[h.leg1, h.leg2], h.cm, h.share⟩ : PathProps Cell)) :
        Cell × PathProps Cell) ∈ pathWrites ds is :=
      List.mem_append_right _
        (List.mem_filterMap.mpr ⟨r, hr, by rw [indirectPathWrite, hh]; rfl⟩)
    exact lastVal_nodup_mem hnd hmem
  · intro l
    apply buildModel_legCaps
    rw [capWritesD_keys]
    have : (pathWrites ds is).map Prod.fst =
        (ds.filterMap directPathWrite).map Prod.fst ++
          (is.filterMap indirectPathWrite).map Prod.fst := by
      unfold pathWrites
      rw [List.map_append]
    rw [this] at hnd
    exact hnd.of_append_left

/-- One well-formed direct row and one well-formed indirect row with
distinct OD codes, for the C4 witness. -/
def c4ds : List Row := [c4dup1]

/-- The indirect rows of the C4 witness input. -/
def c4is : List Row :=
  [[("O-D", Cell.str "A-C"), ("CM", Cell.num 7), ("AI Share", Cell.num 40),
    ("1st Leg O-D", Cell.str "A-B"), ("2nd Leg O-D", Cell.str "B-C"),
    ("1st Leg AI Cap", Cell.num 60), ("2st Leg AI Cap", Cell.num 70)]]

/-- Witness for C4 at a concrete well-formed distinct-code input. -/
theorem c4_witness :
    aget (Cell.str "A-B") (buildModel c4ds c4is).legCaps =
      minOfList (legContribs c4ds c4is (Cell.str "A-B")) :=
  (c4_build_contract c4ds c4is (by decide) (by decide) (by decide)).2.2 (Cell.str "A-B")

/-- An indirect row with every head field present but no leg-capacity
columns at all: a malformed record in the sense of the specification. -/
def c6ind : Row :=
  [("O-D", Cell.str "A-C"), ("CM", Cell.num 5), ("AI Share", Cell.num 10),
   ("1st Leg O-D", Cell.str "A-B"), ("2nd Leg O-D", Cell.str "B-C")]

/-- A direct row missing the O-D field. -/
def c6bad : Row :=
  [("CM", Cell.num 5), ("AI Share", Cell.num 10), ("AI Cap", Cell.num 20)]

/-- C6, counterexample.  The indirect record c6ind misses the required
leg-capacity key, yet the build does not skip it as a whole: its path
is added to the registry (the registry write precedes the capacity
lookups), so a malformed record can contribute to one mapping. -/
theorem c6_counterexample :
    rowGet c6ind "1st Leg AI Cap" = none ∧
    aget (Cell.str "A-C") (buildModel [] [c6ind]).paths =
      some ⟨[Cell.str "A-B", Cell.str "B-C"], 5, 10⟩ ∧
    (buildModel [] [c6ind]).legCaps = [] :=
  ⟨by decide, by decide, by decide⟩

lemma ains_length_of_none {κ β : Type} [DecidableEq κ] (k : κ) (v : β) :
    ∀ m : List (κ × β), aget k m = none → (ains k v m).length = m.length + 1 := by
  intro m
  induction m with
  | nil => intro _; rfl
  | cons q rest ih =>
    intro h
    cases q with
    | mk a b =>
      by_cases ha : a = k
      · exfalso
        rw [show aget k ((a, b) :: rest) = if a = k then some b else aget k rest from rfl,
          if_pos ha] at h
        exact Option.noConfusion h
      · rw [show aget k ((a, b) :: rest) = if a = k then some b else aget k rest from rfl,
          if_neg ha] at h
        show (if a = k then (k, v) :: rest else (a, b) :: ains k v rest).length = _
        rw [if_neg ha]
        show (ains k v rest).length + 1 = _
        rw [ih h]
        simp [List.length_cons]

lemma applyW_length {β : Type} :
    ∀ (ws : List (Cell × β)) (m : List (Cell × β)),
      (ws.map Prod.fst).Nodup → (∀ w ∈ ws, aget w.1 m = none) →
      (applyW m ws).length = m.length + ws.length := by
  intro ws
  induction ws with
  | nil => intro m _ _; rfl
  | cons w rest ih =>
    intro m hnd hnone
    simp only [List.map_cons, List.nodup_cons] at hnd
    show (applyW (ains w.1 w.2 m) rest).length = _
    rw [ih (ains w.1 w.2 m) hnd.2]
    · rw [ains_length_of_none w.1 w.2 m (hnone w (by simp))]
      simp only [List.length_cons]
      omega
    · intro u hu
      have hne : w.1 ≠ u.1 := fun he =>
        hnd.1 (he ▸ List.mem_map.mpr ⟨u, hu, rfl⟩)
      rw [aget_ains_ne _ hne]
      exact hnone u (by simp [hu])

lemma filterMap_directWrite_length : ∀ ds : List Row,
    (ds.filterMap directPathWrite).length =
      (ds.filter (fun r => (parseDirect r).isSome)).length := by
  intro ds
  induction ds with
  | nil => rfl
  | cons r rest ih =>
    rw [List.filterMap_cons, List.filter_cons]
    cases hp : directPathWrite r with
    | none =>
      have hps : (parseDirect r).isSome = false := by
        unfold directPathWrite at hp
        cases hq : parseDirect r with
        | none => rfl
        | some d =>
          rw [hq] at hp
          exact Option.noConfusion hp
      simp only [hps, Bool.false_eq_true, if_false]
      exact ih
    | some w =>
      have hps : (parseDirect r).isSome = true := by
        unfold directPathWrite at hp
        cases hq : parseDirect r with
        | none =>
          rw [hq] at hp
          exact Option.noConfusion hp
        | some d => rfl
      simp only [hps, if_true, List.length_cons]
      rw [ih]

/-- C6, amended.  A malformed direct record contributes nothing to
either mapping; an indirect record whose head fields do not parse
contributes nothing; and for a direct-market input whose well-formed
rows have pairwise distinct OD codes, the OD count of the model equals
the count of well-formed rows (a row missing the O-D key is skipped). -/
theorem c6_malformed_skip :
    (∀ (st : NetModel Cell) (r : Row), parseDirect r = none → processDirect st r = st) ∧
    (∀ (st : NetModel Cell) (r : Row), parseIndirectHead r = none → processIndirect st r = st) ∧
    (∀ ds : List Row, ((ds.filterMap directPathWrite).map Prod.fst).Nodup →
      (buildModel ds []).paths.length =
        (ds.filter (fun r => (parseDirect r).isSome)).length) := by
  refine ⟨?_, ?_, ?_⟩
  · intro st r h
    unfold processDirect
    rw [h]
  · intro st r h
    unfold processIndirect
    rw [h]
  · intro ds hnd
    show ((List.foldl processIndirect (ds.foldl processDirect ⟨[], []⟩) []).paths).length = _
    rw [show List.foldl processIndirect (ds.foldl processDirect ⟨[], []⟩) [] =
      ds.foldl processDirect ⟨[], []⟩ from rfl]
    rw [directPhase_paths]
    have hl := applyW_length (ds.filterMap directPathWrite)
      ((⟨[], []⟩ : NetModel Cell).paths) hnd (fun w _ => rfl)
    rw [hl, filterMap_directWrite_length]
    simp

/-- Witness for C6: a two-row direct input, one row well-formed and
one missing the O-D key. -/
theorem c6_witness :
    (buildModel [c4dup1, c6bad] []).paths.length =
      ([c4dup1, c6bad].filter (fun r => (parseDirect r).isSome)).length :=
  c6_malformed_skip.2.2 [c4dup1, c6bad] (by decide)

lemma rowClaims_keys (r : Row) (h : IndirectHead) (hi : parseIndirectHead r = some h) :
    ∀ p ∈ rowClaims r, p.1 = h.leg1 ∨ p.1 = h.leg2 := by
  intro p hp
  unfold rowClaims at hp
  rw [hi] at hp
  cases h1 : getNum r "1st Leg AI Cap" with
  | none =>
    rw [h1] at hp
    simp at hp
  | some c1 =>
    rw [h1] at hp
    cases h2 : getNum r "2st Leg AI Cap" with
    | none =>
      rw [h2] at hp
      have : p = (h.leg1, c1) := by simpa using hp
      exact Or.inl (by rw [this])
    | some c2 =>
      rw [h2] at hp
      rcases List.mem_cons.mp hp with hp | hp
      · exact Or.inl (by rw [hp])
      · have : p = (h.leg2, c2) := by simpa using hp
        exact Or.inr (by rw [this])

/-- C10.  The registry is last-writer-wins over the whole build, and
for an input with one direct record and one later indirect record for
the same OD code, the indirect attributes replace the direct attributes
in the registry while the direct capacity contribution to the own leg
code remains in the leg-capacity mapping. -/
theorem c10_overwrite :
    (∀ (ds is : List Row) (X : Cell),
      aget X (buildModel ds is).paths = lastVal X (pathWrites ds is)) ∧
    (∀ (dr ir : Row) (d : DirectRec) (h : IndirectHead),
      parseDirect dr = some d → parseIndirectHead ir = some h → h.od = d.od →
      h.leg1 ≠ d.od → h.leg2 ≠ d.od →
      aget d.od (buildModel [dr] [ir]).paths = some ⟨[h.leg1, h.leg2], h.cm, h.share⟩ ∧
      aget d.od (buildModel [dr] [ir]).legCaps = some d.cap) := by
  refine ⟨fun ds is X => buildModel_paths ds is X, ?_⟩
  intro dr ir d h hd hi hod h1 h2
  constructor
  · rw [buildModel_paths]
    unfold pathWrites
    rw [List.filterMap_cons, List.filterMap_cons]
    unfold directPathWrite indirectPathWrite
    rw [hd, hi]
    simp only [Option.map_some', List.filterMap_nil, List.singleton_append]
    rw [hod]
    simp [lastVal]
  · unfold buildModel
    rw [indirectPhase_legCaps, directPhase_legCaps, aget_applyMin]
    have hclaims : (claimsOf [ir]).filter (fun p => decide (p.1 = d.od)) = [] := by
      rw [List.filter_eq_nil_iff]
      intro p hp
      simp only [decide_eq_true_eq]
      have hmem : p ∈ rowClaims ir := by
        have : claimsOf [ir] = rowClaims ir ++ [] := rfl
        rw [this] at hp
        simpa using hp
      rcases rowClaims_keys ir h hi p hmem with hk | hk
      · rw [hk]
        exact h1
      · rw [hk]
        exact h2
    rw [hclaims]
    have hcaps : capWritesD [dr] = [(d.od, d.cap)] := by
      unfold capWritesD
      rw [List.filterMap_cons, hd]
      rfl
    show List.foldl optMin (aget d.od (applyW [] (capWritesD [dr]))) [] = _
    rw [hcaps, aget_applyW_nil]
    simp [lastVal]

/-- The direct row of the C10 witness: OD code A-B. -/
def c10dr : Row := c4dup1

/-- The indirect row of the C10 witness: the same OD code A-B, with
legs A-C and C-B. -/
def c10ir : Row :=
  [("O-D", Cell.str "A-B"), ("CM", Cell.num 7), ("AI Share", Cell.num 40),
   ("1st Leg O-D", Cell.str "A-C"), ("2nd Leg O-D", Cell.str "C-B"),
   ("1st Leg AI Cap", Cell.num 60), ("2st Leg AI Cap", Cell.num 70)]

/-- Witness for C10 at the concrete duplicate-OD input. -/
theorem c10_witness :
    aget (Cell.str "A-B") (buildModel [c10dr] [c10ir]).paths =
      some ⟨[Cell.str "A-C", Cell.str "C-B"], 7, 40⟩ ∧
    aget (Cell.str "A-B") (buildModel [c10dr] [c10ir]).legCaps = some 50 :=
  c10_overwrite.2 c10dr c10ir ⟨Cell.str "A-B", 5, 100, 50⟩
    ⟨Cell.str "A-B", 7, 40, Cell.str "A-C", Cell.str "C-B"⟩
    (by decide) (by decide) rfl (by decide) (by decide)
